import Mathlib

/-!
# Verification of the dolang transpiler front-end

Shallow embedding of the repository's two source files.

* `main.rs` is embedded directly (`Dolang.Transpiler`, `Dolang.main`).
* `lexer.rs` declares the data model (`TokenType`, `Token`, `Lexer`) and a
  placeholder `Lexer::run` that only prints each input character; the
  placeholder is embedded directly as `Dolang.Lexer.run`.
* The scanning algorithm itself is absent from the sources (the placeholder
  print loop stands where it should be), so the lexer proper is modelled
  from the specification, §4.1: `Dolang.lexRun` and its helpers.
-/

namespace Dolang

/-- Character class: whitespace per the spec (space, tab, newline, carriage
return). -/
def isWhitespace (c : Char) : Bool :=
  c == ' ' || c == '\t' || c == '\n' || c == '\r'

/-- Character class: ASCII letter. -/
def isLetter (c : Char) : Bool :=
  ('a' ≤ c && c ≤ 'z') || ('A' ≤ c && c ≤ 'Z')

/-- Character class: ASCII digit. -/
def isDigit (c : Char) : Bool :=
  '0' ≤ c && c ≤ '9'

/-- Character class: may start an identifier (letter or underscore). -/
def isIdentStart (c : Char) : Bool :=
  isLetter c || c == '_'

/-- Character class: may continue an identifier (letter, digit or
underscore). -/
def isIdentCont (c : Char) : Bool :=
  isIdentStart c || isDigit c

/-- The token kinds of `lexer.rs` (`enum TokenType`), a closed tag-only
enumeration. -/
inductive TokenType where
  | Function
  | Return
  | Import
  | Let
  | Const
  | String
  | Integer
  | Identifier
  | LeftParenthesis
  | RightParenthesis
  | LeftSquareBracket
  | RightSquareBracket
  | LeftBrace
  | RightBrace
  | Period
  | Comma
  | Set
  | Colon
  | Semicolon
  | Arrow
  | Plus
  | Minus
deriving DecidableEq

/-- The token record of `lexer.rs` (`struct Token`): kind, exact matched
text, and zero-based character offset of the first character. -/
structure Token where
  type : TokenType
  text : List Char
  position : Nat
deriving DecidableEq

/-- A lexical error: message and the offset at which the problem was
detected (spec §3, §7). -/
structure LexError where
  message : String
  position : Nat
deriving DecidableEq

/-- The lexer state of `lexer.rs` (`struct Lexer`). -/
structure Lexer where
  tokens : List Token

/-- Embedding of the placeholder `Lexer::run` of `lexer.rs`: it takes no
receiver, returns unit, and prints one line per input character
(`println!("{}: {}", i, c)`).  The embedding returns the list of printed
lines, which is the function's only observable behaviour. -/
def Lexer.run (input_text : List Char) : List String :=
  input_text.enum.map (fun ic => toString ic.1 ++ ": " ++ toString ic.2)

/-- Modelled from the spec: the fixed keyword table of §4.1 (the scanning
logic is missing from the sources).  An exact, case-sensitive match yields
the keyword's kind, otherwise `Identifier`. -/
def keywordKind (w : List Char) : TokenType :=
  if w = "function".toList then .Function
  else if w = "return".toList then .Return
  else if w = "import".toList then .Import
  else if w = "let".toList then .Let
  else if w = "const".toList then .Const
  else .Identifier

/-- Modelled from the spec: string-scanning mode of §4.1.  Given the input
after an opening quote, consume characters until the next double quote.
Returns the consumed characters (closing quote included) and the remaining
input, or `none` when no closing quote exists before end of input. -/
def scanString : List Char → Option (List Char × List Char)
  | [] => none
  | c :: rest =>
    if c = '"' then some ([c], rest)
    else
      match scanString rest with
      | none => none
      | some (s, r) => some (c :: s, r)

/-- Modelled from the spec: one classification step of §4.1 step 3, at
cursor offset `pos`, on a non-whitespace current character `c` with
remaining input `rs`.  Returns the scanned token and the rest of the input,
or the lexical error. -/
def nextToken (pos : Nat) (c : Char) (rs : List Char) :
    Except LexError (Token × List Char) :=
  if isIdentStart c then
    .ok (⟨keywordKind (c :: rs.takeWhile isIdentCont),
          c :: rs.takeWhile isIdentCont, pos⟩, rs.dropWhile isIdentCont)
  else if isDigit c then
    .ok (⟨.Integer, c :: rs.takeWhile isDigit, pos⟩, rs.dropWhile isDigit)
  else if c = '"' then
    match scanString rs with
    | none => .error ⟨"unterminated string literal", pos⟩
    | some (s, r) => .ok (⟨.String, c :: s, pos⟩, r)
  else if c = '(' then .ok (⟨.LeftParenthesis, [c], pos⟩, rs)
  else if c = ')' then .ok (⟨.RightParenthesis, [c], pos⟩, rs)
  else if c = '[' then .ok (⟨.LeftSquareBracket, [c], pos⟩, rs)
  else if c = ']' then .ok (⟨.RightSquareBracket, [c], pos⟩, rs)
  else if c = '\x7b' then .ok (⟨.LeftBrace, [c], pos⟩, rs)
  else if c = '\x7d' then .ok (⟨.RightBrace, [c], pos⟩, rs)
  else if c = '.' then .ok (⟨.Period, [c], pos⟩, rs)
  else if c = ',' then .ok (⟨.Comma, [c], pos⟩, rs)
  else if c = ';' then .ok (⟨.Semicolon, [c], pos⟩, rs)
  else if c = '+' then .ok (⟨.Plus, [c], pos⟩, rs)
  else if c = '-' then
    match rs with
    | [] => .ok (⟨.Minus, ['-'], pos⟩, [])
    | d :: r => if d = '>' then .ok (⟨.Arrow, ['-', '>'], pos⟩, r)
                else .ok (⟨.Minus, ['-'], pos⟩, d :: r)
  else if c = '=' then .ok (⟨.Set, ['='], pos⟩, rs)
  else if c = ':' then
    match rs with
    | [] => .ok (⟨.Colon, [':'], pos⟩, [])
    | d :: r => if d = '=' then .ok (⟨.Set, [':', '='], pos⟩, r)
                else .ok (⟨.Colon, [':'], pos⟩, d :: r)
  else .error ⟨"unexpected character", pos⟩

/-- Modelled from the spec: the scanning loop of §4.1, fuel-indexed so the
recursion is structural.  `pos` is the cursor offset of the head of the
remaining input.  With fuel above the input length the fuel branch is
unreachable (`lexLoopF_fuel_irrel`). -/
def lexLoopF : Nat → Nat → List Char → Except LexError (List Token)
  | 0, pos, _ => .error ⟨"fuel exhausted", pos⟩
  | _ + 1, _, [] => .ok []
  | fuel + 1, pos, c :: rs =>
    if isWhitespace c then
      lexLoopF fuel (pos + 1) rs
    else
      match nextToken pos c rs with
      | .error e => .error e
      | .ok (t, rest) =>
        match lexLoopF fuel (pos + t.text.length) rest with
        | .error e => .error e
        | .ok ts => .ok (t :: ts)

/-- Modelled from the spec: the scanning loop of §4.1 from cursor offset
`pos`, with adequate fuel. -/
def lexLoop (pos : Nat) (l : List Char) : Except LexError (List Token) :=
  lexLoopF (l.length + 1) pos l

/-- Modelled from the spec: `run(input) -> Result<sequence-of-Token,
LexError>` of §4.1 — the contract of the lexer whose implementation is
missing from the sources. -/
def lexRun (input : List Char) : Except LexError (List Token) :=
  lexLoop 0 input

/-- Tokens chained from offset `pos`: each token starts at or after the
cursor, and each later token starts at or after the end of the previous
one. -/
def Chained : Nat → List Token → Prop
  | _, [] => True
  | pos, t :: ts => pos ≤ t.position ∧ Chained (t.position + t.text.length) ts

/-- Kinds whose text is a maximal identifier run (keywords and
identifiers). -/
def isWordKind : TokenType → Bool
  | .Function => true
  | .Return => true
  | .Import => true
  | .Let => true
  | .Const => true
  | .Identifier => true
  | _ => false

/-- The per-token soundness facts of a token scanned while the cursor was at
offset `pos` with remaining input `l`. -/
def TokFacts (l : List Char) (pos : Nat) (t : Token) : Prop :=
  pos ≤ t.position
  ∧ t.text ≠ []
  ∧ (∃ suffix, l.drop (t.position - pos) = t.text ++ suffix
      ∧ (t.type = .Minus → suffix.head? ≠ some '>')
      ∧ (t.type = .Colon → suffix.head? ≠ some '=')
      ∧ (t.type = .Integer → ∀ d, suffix.head? = some d → isDigit d = false)
      ∧ (isWordKind t.type = true → ∀ d, suffix.head? = some d → isIdentCont d = false))
  ∧ (t.type = .Minus → t.text = ['-'])
  ∧ (t.type = .Colon → t.text = [':'])
  ∧ (t.type ≠ .String → ∀ d ∈ t.text, isWhitespace d = false)
  ∧ (∀ d ∈ t.text.take 1, isWhitespace d = false)

/-- Modelled from the spec: the scanning algorithm of §4.1 as a big-step
relation on configurations (cursor offset, remaining input), used to state
determinism of the lexer as a genuine theorem. -/
inductive LexesFrom : Nat → List Char → Except LexError (List Token) → Prop
  | nil (pos : Nat) : LexesFrom pos [] (.ok [])
  | ws {pos : Nat} {c : Char} {rs : List Char} {r : Except LexError (List Token)}
      (hws : isWhitespace c = true) (h : LexesFrom (pos + 1) rs r) :
      LexesFrom pos (c :: rs) r
  | tok_err {pos : Nat} {c : Char} {rs : List Char} {e : LexError}
      (hws : isWhitespace c = false) (h : nextToken pos c rs = .error e) :
      LexesFrom pos (c :: rs) (.error e)
  | tok_ok_err {pos : Nat} {c : Char} {rs rest : List Char} {t : Token} {e : LexError}
      (hws : isWhitespace c = false) (h : nextToken pos c rs = .ok (t, rest))
      (hrec : LexesFrom (pos + t.text.length) rest (.error e)) :
      LexesFrom pos (c :: rs) (.error e)
  | tok_ok_ok {pos : Nat} {c : Char} {rs rest : List Char} {t : Token} {ts : List Token}
      (hws : isWhitespace c = false) (h : nextToken pos c rs = .ok (t, rest))
      (hrec : LexesFrom (pos + t.text.length) rest (.ok ts)) :
      LexesFrom pos (c :: rs) (.ok (t :: ts))

/-- Embedding of `struct Transpiler` of `main.rs`. -/
structure Transpiler where
  input_path : String

/-- Embedding of `fn main` of `main.rs`: the process argument list (program
name first) is passed explicitly, the `expect` panic is an `Except.error`
carrying the panic message, and the value of a normal run is the list of
printed lines.  `main` never invokes the lexer. -/
def main (args : List String) : Except String (List String) :=
  match args.get? 1 with
  | none => .error "expected input path"
  | some input_path =>
    let transpiler : Transpiler := ⟨input_path⟩
    .ok ["Parsing " ++ transpiler.input_path]

theorem whitespace_cases {d : Char} (h : isWhitespace d = true) :
    d = ' ' ∨ d = '\t' ∨ d = '\n' ∨ d = '\r' := by
  simp only [isWhitespace, Bool.or_eq_true, beq_iff_eq] at h
  tauto

theorem identCont_not_whitespace {d : Char} (h : isIdentCont d = true) :
    isWhitespace d = false := by
  cases hw : isWhitespace d with
  | false => rfl
  | true =>
    rcases whitespace_cases hw with rfl | rfl | rfl | rfl <;> exact absurd h (by decide)

theorem identStart_identCont {d : Char} (h : isIdentStart d = true) :
    isIdentCont d = true := by
  simp [isIdentCont, h]

theorem digit_identCont {d : Char} (h : isDigit d = true) :
    isIdentCont d = true := by
  simp [isIdentCont, h]

theorem digit_not_whitespace {d : Char} (h : isDigit d = true) :
    isWhitespace d = false :=
  identCont_not_whitespace (digit_identCont h)

theorem head_dropWhile_not {p : Char → Bool} :
    ∀ {l : List Char} {d : Char}, (l.dropWhile p).head? = some d → p d = false := by
  intro l
  induction l with
  | nil => intro d h; simp [List.dropWhile] at h
  | cons c r ih =>
    intro d h
    by_cases hc : p c
    · rw [List.dropWhile_cons_of_pos hc] at h
      exact ih h
    · rw [List.dropWhile_cons_of_neg hc] at h
      simp only [List.head?_cons, Option.some.injEq] at h
      subst h
      exact Bool.not_eq_true _ ▸ (Bool.eq_false_iff.mpr hc)

theorem scanString_append :
    ∀ {l s r : List Char}, scanString l = some (s, r) → s ++ r = l := by
  intro l
  induction l with
  | nil => intro s r h; simp [scanString] at h
  | cons c rest ih =>
    intro s r h
    unfold scanString at h
    by_cases hc : c = '"'
    · rw [if_pos hc] at h
      simp only [Option.some.injEq, Prod.mk.injEq] at h
      rcases h with ⟨rfl, rfl⟩
      simp
    · rw [if_neg hc] at h
      cases hs : scanString rest with
      | none => rw [hs] at h; simp at h
      | some sr =>
        obtain ⟨s0, r0⟩ := sr
        rw [hs] at h
        simp only [Option.some.injEq, Prod.mk.injEq] at h
        rcases h with ⟨rfl, rfl⟩
        simpa using ih hs

theorem scanString_none :
    ∀ {l : List Char}, l.count '"' = 0 → scanString l = none := by
  intro l
  induction l with
  | nil => intro _; rfl
  | cons c rest ih =>
    intro h
    rw [List.count_cons] at h
    have hc : c ≠ '"' := by
      intro heq
      simp [heq] at h
    have hrest : rest.count '"' = 0 := by
      rcases Nat.add_eq_zero.mp h with ⟨h1, _⟩
      exact h1
    unfold scanString
    rw [if_neg hc, ih hrest]

theorem keywordKind_word (w : List Char) : isWordKind (keywordKind w) = true := by
  unfold keywordKind
  split_ifs <;> rfl

theorem nextToken_ok_facts {pos : Nat} {c : Char} {rs rest : List Char} {t : Token}
    (h : nextToken pos c rs = .ok (t, rest)) :
    t.position = pos ∧ t.text ≠ [] ∧ t.text ++ rest = c :: rs
    ∧ (t.type = .Minus → t.text = ['-'] ∧ rest.head? ≠ some '>')
    ∧ (t.type = .Colon → t.text = [':'] ∧ rest.head? ≠ some '=')
    ∧ (t.type ≠ .String → ∀ d ∈ t.text, isWhitespace d = false)
    ∧ (∀ d ∈ t.text.take 1, isWhitespace d = false)
    ∧ (t.type = .Integer → ∀ d, rest.head? = some d → isDigit d = false)
    ∧ (isWordKind t.type = true → ∀ d, rest.head? = some d → isIdentCont d = false) := by
  unfold nextToken at h
  by_cases hIdent : isIdentStart c = true
  · rw [if_pos hIdent] at h
    simp only [Except.ok.injEq, Prod.mk.injEq] at h
    obtain ⟨rfl, rfl⟩ := h
    dsimp only
    have hword := keywordKind_word (c :: rs.takeWhile isIdentCont)
    refine ⟨rfl, by simp, by simp [List.takeWhile_append_dropWhile], ?_, ?_, ?_, ?_, ?_, ?_⟩
    · intro hm; rw [hm] at hword; exact absurd hword (by decide)
    · intro hm; rw [hm] at hword; exact absurd hword (by decide)
    · intro _ d hd
      rcases List.mem_cons.mp hd with rfl | hd2
      · exact identCont_not_whitespace (identStart_identCont hIdent)
      · exact identCont_not_whitespace (List.mem_takeWhile_imp hd2)
    · intro d hd
      simp only [List.take_succ_cons, List.take_zero, List.mem_singleton] at hd
      subst hd
      exact identCont_not_whitespace (identStart_identCont hIdent)
    · intro hm; rw [hm] at hword; exact absurd hword (by decide)
    · intro _ d hd
      exact head_dropWhile_not hd
  rw [if_neg hIdent] at h
  by_cases hDigit : isDigit c = true
  · rw [if_pos hDigit] at h
    simp only [Except.ok.injEq, Prod.mk.injEq] at h
    obtain ⟨rfl, rfl⟩ := h
    dsimp only
    refine ⟨rfl, by simp, by simp [List.takeWhile_append_dropWhile], by simp, by simp, ?_, ?_, ?_, by simp [isWordKind]⟩
    · intro _ d hd
      rcases List.mem_cons.mp hd with rfl | hd2
      · exact digit_not_whitespace hDigit
      · exact digit_not_whitespace (List.mem_takeWhile_imp hd2)
    · intro d hd
      simp only [List.take_succ_cons, List.take_zero, List.mem_singleton] at hd
      subst hd
      exact digit_not_whitespace hDigit
    · intro _ d hd
      exact head_dropWhile_not hd
  rw [if_neg hDigit] at h
  by_cases hQuote : c = '"'
  · rw [if_pos hQuote] at h
    subst hQuote
    cases hs : scanString rs with
    | none => rw [hs] at h; simp at h
    | some sr =>
      obtain ⟨s, r⟩ := sr
      rw [hs] at h
      simp only [Except.ok.injEq, Prod.mk.injEq] at h
      obtain ⟨rfl, rfl⟩ := h
      dsimp only
      refine ⟨rfl, by simp, ?_, by simp, by simp, ?_, ?_, by simp, by simp [isWordKind]⟩
      · simpa using scanString_append hs
      · intro hne; exact absurd rfl hne
      · intro d hd
        simp only [List.take_succ_cons, List.take_zero, List.mem_singleton] at hd
        subst hd
        decide
  rw [if_neg hQuote] at h
  by_cases hLP : c = '('
  · rw [if_pos hLP] at h
    subst hLP
    simp only [Except.ok.injEq, Prod.mk.injEq] at h
    obtain ⟨rfl, rfl⟩ := h
    dsimp only
    exact ⟨rfl, by simp, rfl, by simp, by simp, fun _ => by decide, by decide, by simp, by simp [isWordKind]⟩
  rw [if_neg hLP] at h
  by_cases hRP : c = ')'
  · rw [if_pos hRP] at h
    subst hRP
    simp only [Except.ok.injEq, Prod.mk.injEq] at h
    obtain ⟨rfl, rfl⟩ := h
    dsimp only
    exact ⟨rfl, by simp, rfl, by simp, by simp, fun _ => by decide, by decide, by simp, by simp [isWordKind]⟩
  rw [if_neg hRP] at h
  by_cases hLS : c = '['
  · rw [if_pos hLS] at h
    subst hLS
    simp only [Except.ok.injEq, Prod.mk.injEq] at h
    obtain ⟨rfl, rfl⟩ := h
    dsimp only
    exact ⟨rfl, by simp, rfl, by simp, by simp, fun _ => by decide, by decide, by simp, by simp [isWordKind]⟩
  rw [if_neg hLS] at h
  by_cases hRS : c = ']'
  · rw [if_pos hRS] at h
    subst hRS
    simp only [Except.ok.injEq, Prod.mk.injEq] at h
    obtain ⟨rfl, rfl⟩ := h
    dsimp only
    exact ⟨rfl, by simp, rfl, by simp, by simp, fun _ => by decide, by decide, by simp, by simp [isWordKind]⟩
  rw [if_neg hRS] at h
  by_cases hLB : c = '\x7b'
  · rw [if_pos hLB] at h
    subst hLB
    simp only [Except.ok.injEq, Prod.mk.injEq] at h
    obtain ⟨rfl, rfl⟩ := h
    dsimp only
    exact ⟨rfl, by simp, rfl, by simp, by simp, fun _ => by decide, by decide, by simp, by simp [isWordKind]⟩
  rw [if_neg hLB] at h
  by_cases hRB : c = '\x7d'
  · rw [if_pos hRB] at h
    subst hRB
    simp only [Except.ok.injEq, Prod.mk.injEq] at h
    obtain ⟨rfl, rfl⟩ := h
    dsimp only
    exact ⟨rfl, by simp, rfl, by simp, by simp, fun _ => by decide, by decide, by simp, by simp [isWordKind]⟩
  rw [if_neg hRB] at h
  by_cases hPer : c = '.'
  · rw [if_pos hPer] at h
    subst hPer
    simp only [Except.ok.injEq, Prod.mk.injEq] at h
    obtain ⟨rfl, rfl⟩ := h
    dsimp only
    exact ⟨rfl, by simp, rfl, by simp, by simp, fun _ => by decide, by decide, by simp, by simp [isWordKind]⟩
  rw [if_neg hPer] at h
  by_cases hCom : c = ','
  · rw [if_pos hCom] at h
    subst hCom
    simp only [Except.ok.injEq, Prod.mk.injEq] at h
    obtain ⟨rfl, rfl⟩ := h
    dsimp only
    exact ⟨rfl, by simp, rfl, by simp, by simp, fun _ => by decide, by decide, by simp, by simp [isWordKind]⟩
  rw [if_neg hCom] at h
  by_cases hSemi : c = ';'
  · rw [if_pos hSemi] at h
    subst hSemi
    simp only [Except.ok.injEq, Prod.mk.injEq] at h
    obtain ⟨rfl, rfl⟩ := h
    dsimp only
    exact ⟨rfl, by simp, rfl, by simp, by simp, fun _ => by decide, by decide, by simp, by simp [isWordKind]⟩
  rw [if_neg hSemi] at h
  by_cases hPlus : c = '+'
  · rw [if_pos hPlus] at h
    subst hPlus
    simp only [Except.ok.injEq, Prod.mk.injEq] at h
    obtain ⟨rfl, rfl⟩ := h
    dsimp only
    exact ⟨rfl, by simp, rfl, by simp, by simp, fun _ => by decide, by decide, by simp, by simp [isWordKind]⟩
  rw [if_neg hPlus] at h
  by_cases hMinus : c = '-'
  · rw [if_pos hMinus] at h
    subst hMinus
    cases rs with
    | nil =>
      simp only [Except.ok.injEq, Prod.mk.injEq] at h
      obtain ⟨rfl, rfl⟩ := h
      dsimp only
      exact ⟨rfl, by simp, rfl, fun _ => ⟨rfl, by simp⟩, by simp, fun _ => by decide, by decide, by simp, by simp [isWordKind]⟩
    | cons d r =>
      dsimp only at h
      by_cases hd : d = '>'
      · rw [if_pos hd] at h
        subst hd
        simp only [Except.ok.injEq, Prod.mk.injEq] at h
        obtain ⟨rfl, rfl⟩ := h
        dsimp only
        exact ⟨rfl, by simp, rfl, by simp, by simp, fun _ => by decide, by decide, by simp, by simp [isWordKind]⟩
      · rw [if_neg hd] at h
        simp only [Except.ok.injEq, Prod.mk.injEq] at h
        obtain ⟨rfl, rfl⟩ := h
        dsimp only
        refine ⟨rfl, by simp, rfl, fun _ => ⟨rfl, ?_⟩, by simp, fun _ => by decide, by decide, by simp, by simp [isWordKind]⟩
        simp only [List.head?_cons, ne_eq, Option.some.injEq]
        exact hd
  rw [if_neg hMinus] at h
  by_cases hEq : c = '='
  · rw [if_pos hEq] at h
    subst hEq
    simp only [Except.ok.injEq, Prod.mk.injEq] at h
    obtain ⟨rfl, rfl⟩ := h
    dsimp only
    exact ⟨rfl, by simp, rfl, by simp, by simp, fun _ => by decide, by decide, by simp, by simp [isWordKind]⟩
  rw [if_neg hEq] at h
  by_cases hColon : c = ':'
  · rw [if_pos hColon] at h
    subst hColon
    cases rs with
    | nil =>
      simp only [Except.ok.injEq, Prod.mk.injEq] at h
      obtain ⟨rfl, rfl⟩ := h
      dsimp only
      exact ⟨rfl, by simp, rfl, by simp, fun _ => ⟨rfl, by simp⟩, fun _ => by decide, by decide, by simp, by simp [isWordKind]⟩
    | cons d r =>
      dsimp only at h
      by_cases hd : d = '='
      · rw [if_pos hd] at h
        subst hd
        simp only [Except.ok.injEq, Prod.mk.injEq] at h
        obtain ⟨rfl, rfl⟩ := h
        dsimp only
        exact ⟨rfl, by simp, rfl, by simp, by simp, fun _ => by decide, by decide, by simp, by simp [isWordKind]⟩
      · rw [if_neg hd] at h
        simp only [Except.ok.injEq, Prod.mk.injEq] at h
        obtain ⟨rfl, rfl⟩ := h
        dsimp only
        refine ⟨rfl, by simp, rfl, by simp, fun _ => ⟨rfl, ?_⟩, fun _ => by decide, by decide, by simp, by simp [isWordKind]⟩
        simp only [List.head?_cons, ne_eq, Option.some.injEq]
        exact hd
  rw [if_neg hColon] at h
  simp at h

theorem nextToken_consumes {pos : Nat} {c : Char} {rs rest : List Char} {t : Token}
    (h : nextToken pos c rs = .ok (t, rest)) : rest.length ≤ rs.length := by
  obtain ⟨_, hne, happ, _⟩ := nextToken_ok_facts h
  have hlen := congrArg List.length happ
  simp only [List.length_append, List.length_cons] at hlen
  have := List.length_pos.mpr hne
  omega

theorem lexLoopF_fuel_irrel :
    ∀ n (l : List Char), l.length ≤ n → ∀ f₁ f₂ pos, l.length < f₁ → l.length < f₂ →
      lexLoopF f₁ pos l = lexLoopF f₂ pos l := by
  intro n
  induction n with
  | zero =>
    intro l hl f₁ f₂ pos h1 h2
    have hnil : l = [] := List.length_eq_zero.mp (Nat.le_zero.mp hl)
    subst hnil
    cases f₁ with
    | zero => omega
    | succ a =>
      cases f₂ with
      | zero => omega
      | succ b => rfl
  | succ n ih =>
    intro l hl f₁ f₂ pos h1 h2
    cases l with
    | nil =>
      cases f₁ with
      | zero => omega
      | succ a =>
        cases f₂ with
        | zero => omega
        | succ b => rfl
    | cons c rs =>
      cases f₁ with
      | zero => simp at h1
      | succ a =>
        cases f₂ with
        | zero => simp at h2
        | succ b =>
          simp only [List.length_cons] at hl h1 h2
          simp only [lexLoopF]
          by_cases hws : isWhitespace c
          · rw [if_pos hws, if_pos hws]
            exact ih rs (by omega) a b (pos + 1) (by omega) (by omega)
          · rw [if_neg hws, if_neg hws]
            cases hnt : nextToken pos c rs with
            | error e => rfl
            | ok tr =>
              obtain ⟨t, rest⟩ := tr
              have hrest := nextToken_consumes hnt
              dsimp only
              rw [ih rest (by omega) a b (pos + t.text.length) (by omega) (by omega)]
  

theorem lexLoop_nil (pos : Nat) : lexLoop pos [] = .ok [] := rfl

theorem lexLoop_cons (pos : Nat) (c : Char) (rs : List Char) :
    lexLoop pos (c :: rs) =
      if isWhitespace c then lexLoop (pos + 1) rs
      else
        match nextToken pos c rs with
        | .error e => .error e
        | .ok (t, rest) =>
          match lexLoop (pos + t.text.length) rest with
          | .error e => .error e
          | .ok ts => .ok (t :: ts) := by
  show lexLoopF (rs.length + 1 + 1) pos (c :: rs) = _
  simp only [lexLoopF]
  by_cases hws : isWhitespace c
  · rw [if_pos hws, if_pos hws]
    rfl
  · rw [if_neg hws, if_neg hws]
    cases hnt : nextToken pos c rs with
    | error e => rfl
    | ok tr =>
      obtain ⟨t, rest⟩ := tr
      have hrest := nextToken_consumes hnt
      have hrw := lexLoopF_fuel_irrel rest.length rest le_rfl (rs.length + 1)
        (rest.length + 1) (pos + t.text.length) (by omega) (by omega)
      dsimp only
      rw [hrw]
      rfl

theorem Chained_mono {pos pos2 : Nat} (hle : pos ≤ pos2) :
    ∀ {ts : List Token}, Chained pos2 ts → Chained pos ts := by
  intro ts h
  cases ts with
  | nil => trivial
  | cons t ts => exact ⟨le_trans hle h.1, h.2⟩

theorem lexLoop_ok_sound :
    ∀ n (l : List Char), l.length ≤ n → ∀ pos ts, lexLoop pos l = .ok ts →
      (∀ t ∈ ts, TokFacts l pos t) ∧ Chained pos ts := by
  intro n
  induction n with
  | zero =>
    intro l hl pos ts h
    have hnil : l = [] := List.length_eq_zero.mp (Nat.le_zero.mp hl)
    subst hnil
    rw [lexLoop_nil] at h
    simp only [Except.ok.injEq] at h
    subst h
    exact ⟨by simp, trivial⟩
  | succ n ih =>
    intro l hl pos ts h
    cases l with
    | nil =>
      rw [lexLoop_nil] at h
      simp only [Except.ok.injEq] at h
      subst h
      exact ⟨by simp, trivial⟩
    | cons c rs =>
      simp only [List.length_cons] at hl
      rw [lexLoop_cons] at h
      by_cases hws : isWhitespace c
      · rw [if_pos hws] at h
        obtain ⟨hfacts, hch⟩ := ih rs (by omega) (pos + 1) ts h
        constructor
        · intro t ht
          obtain ⟨hpos, hne, ⟨suf, hdrop, hm, hc2, hint, hword⟩, hmt, hct, hwsf, hhead⟩ :=
            hfacts t ht
          refine ⟨by omega, hne, ⟨suf, ?_, hm, hc2, hint, hword⟩, hmt, hct, hwsf, hhead⟩
          have harith : t.position - pos = (t.position - (pos + 1)) + 1 := by omega
          rw [harith, List.drop_succ_cons]
          exact hdrop
        · exact Chained_mono (by omega) hch
      · rw [if_neg hws] at h
        cases hnt : nextToken pos c rs with
        | error e => rw [hnt] at h; simp at h
        | ok tr =>
          obtain ⟨t0, rest⟩ := tr
          rw [hnt] at h
          dsimp only at h
          cases hrec : lexLoop (pos + t0.text.length) rest with
          | error e => rw [hrec] at h; simp at h
          | ok ts0 =>
            rw [hrec] at h
            simp only [Except.ok.injEq] at h
            subst h
            obtain ⟨hp0, hne0, happ0, hm0, hc0, hwsf0, hhead0, hint0, hword0⟩ :=
              nextToken_ok_facts hnt
            have hlen0 := congrArg List.length happ0
            simp only [List.length_append, List.length_cons] at hlen0
            have hpos0 := List.length_pos.mpr hne0
            obtain ⟨hfacts, hch⟩ := ih rest (by omega) (pos + t0.text.length) ts0 hrec
            constructor
            · intro t ht
              rcases List.mem_cons.mp ht with rfl | ht2
              · refine ⟨le_of_eq hp0.symm, hne0, ⟨rest, ?_, fun hm => (hm0 hm).2,
                  fun hc => (hc0 hc).2, hint0, hword0⟩, fun hm => (hm0 hm).1,
                  fun hc => (hc0 hc).1, hwsf0, hhead0⟩
                rw [hp0, Nat.sub_self, List.drop_zero]
                exact happ0.symm
              · obtain ⟨hpos, hne, ⟨suf, hdrop, hm, hc2, hint, hword⟩, hmt, hct, hwsf, hhead⟩ :=
                  hfacts t ht2
                refine ⟨by omega, hne, ⟨suf, ?_, hm, hc2, hint, hword⟩, hmt, hct, hwsf, hhead⟩
                rw [← happ0]
                have harith : t.position - pos =
                    t0.text.length + (t.position - (pos + t0.text.length)) := by omega
                rw [harith, List.drop_append]
                exact hdrop
            · refine ⟨le_of_eq hp0.symm, ?_⟩
              rw [hp0]
              exact hch

theorem Chained_chain_le :
    ∀ {ts : List Token} {pos : Nat}, Chained pos ts →
      List.Chain' (fun a b => a.position + a.text.length ≤ b.position) ts := by
  intro ts
  induction ts with
  | nil => intro pos _; simp
  | cons t ts ih =>
    intro pos h
    obtain ⟨hle, hch⟩ := h
    rw [List.chain'_cons']
    refine ⟨?_, ih hch⟩
    intro y hy
    cases ts with
    | nil => simp at hy
    | cons t2 ts2 =>
      simp only [List.head?_cons, Option.mem_def, Option.some.injEq] at hy
      subst hy
      exact hch.1

theorem chain_lt_of_chain_le {ts : List Token}
    (hne : ∀ t ∈ ts, t.text ≠ [])
    (h : List.Chain' (fun a b => a.position + a.text.length ≤ b.position) ts) :
    List.Chain' (fun a b => a.position < b.position) ts := by
  induction ts with
  | nil => simp
  | cons t ts ih =>
    cases ts with
    | nil => simp
    | cons t2 ts2 =>
      rw [List.chain'_cons] at h ⊢
      obtain ⟨h1, h2⟩ := h
      refine ⟨?_, ih (fun x hx => hne x (List.mem_cons_of_mem _ hx)) h2⟩
      have := List.length_pos.mpr (hne t (by simp))
      omega

theorem lexesFrom_det {pos : Nat} {l : List Char} {r₁ r₂ : Except LexError (List Token)}
    (h1 : LexesFrom pos l r₁) (h2 : LexesFrom pos l r₂) : r₁ = r₂ := by
  induction h1 generalizing r₂ with
  | nil =>
    cases h2 with
    | nil => rfl
  | ws hws h ih =>
    cases h2 with
    | ws hws2 h2 => exact ih h2
    | tok_err hws2 _ => rw [hws] at hws2; cases hws2
    | tok_ok_err hws2 _ _ => rw [hws] at hws2; cases hws2
    | tok_ok_ok hws2 _ _ => rw [hws] at hws2; cases hws2
  | tok_err hws hnt =>
    cases h2 with
    | ws hws2 _ => rw [hws] at hws2; cases hws2
    | tok_err hws2 hnt2 => rw [hnt] at hnt2; injection hnt2 with he; rw [he]
    | tok_ok_err hws2 hnt2 _ => rw [hnt] at hnt2; cases hnt2
    | tok_ok_ok hws2 hnt2 _ => rw [hnt] at hnt2; cases hnt2
  | tok_ok_err hws hnt hrec ih =>
    cases h2 with
    | ws hws2 _ => rw [hws] at hws2; cases hws2
    | tok_err hws2 hnt2 => rw [hnt] at hnt2; cases hnt2
    | tok_ok_err hws2 hnt2 hrec2 =>
      rw [hnt] at hnt2
      injection hnt2 with hp
      injection hp with hpt hpr
      subst hpt
      subst hpr
      exact ih hrec2
    | tok_ok_ok hws2 hnt2 hrec2 =>
      rw [hnt] at hnt2
      injection hnt2 with hp
      injection hp with hpt hpr
      subst hpt
      subst hpr
      cases ih hrec2
  | tok_ok_ok hws hnt hrec ih =>
    cases h2 with
    | ws hws2 _ => rw [hws] at hws2; cases hws2
    | tok_err hws2 hnt2 => rw [hnt] at hnt2; cases hnt2
    | tok_ok_err hws2 hnt2 hrec2 =>
      rw [hnt] at hnt2
      injection hnt2 with hp
      injection hp with hpt hpr
      subst hpt
      subst hpr
      cases ih hrec2
    | tok_ok_ok hws2 hnt2 hrec2 =>
      rw [hnt] at hnt2
      injection hnt2 with hp
      injection hp with hpt hpr
      subst hpt
      subst hpr
      have := ih hrec2
      injection this with hts
      rw [hts]

theorem lexLoop_lexesFrom :
    ∀ n (l : List Char), l.length ≤ n → ∀ pos, LexesFrom pos l (lexLoop pos l) := by
  intro n
  induction n with
  | zero =>
    intro l hl pos
    have hnil : l = [] := List.length_eq_zero.mp (Nat.le_zero.mp hl)
    subst hnil
    rw [lexLoop_nil]
    exact LexesFrom.nil pos
  | succ n ih =>
    intro l hl pos
    cases l with
    | nil =>
      rw [lexLoop_nil]
      exact LexesFrom.nil pos
    | cons c rs =>
      simp only [List.length_cons] at hl
      rw [lexLoop_cons]
      by_cases hws : isWhitespace c
      · rw [if_pos hws]
        exact LexesFrom.ws hws (ih rs (by omega) (pos + 1))
      · have hws' : isWhitespace c = false := by simpa using hws
        rw [if_neg hws]
        cases hnt : nextToken pos c rs with
        | error e => exact LexesFrom.tok_err hws' hnt
        | ok tr =>
          obtain ⟨t, rest⟩ := tr
          dsimp only
          have hrest := nextToken_consumes hnt
          have hrec := ih rest (by omega) (pos + t.text.length)
          cases hloop : lexLoop (pos + t.text.length) rest with
          | error e =>
            rw [hloop] at hrec
            exact LexesFrom.tok_ok_err hws' hnt hrec
          | ok ts =>
            rw [hloop] at hrec
            exact LexesFrom.tok_ok_ok hws' hnt hrec

/-- C1: for every input, the modelled `run` is total — it yields either a
token sequence or exactly one `LexError`, with no third outcome. -/
theorem C1_run_total (input : List Char) :
    (∃ ts, lexRun input = .ok ts) ∨ (∃ e, lexRun input = .error e) := by
  cases h : lexRun input with
  | ok ts => exact Or.inl ⟨ts, rfl⟩
  | error e => exact Or.inr ⟨e, rfl⟩

/-- C2: `run` on `"let x = 5;"` returns exactly
`[Let, Identifier "x", Set, Integer "5", Semicolon]`. -/
theorem C2_let_statement :
    lexRun ("let x = 5;".toList) = .ok
      [⟨.Let, ['l', 'e', 't'], 0⟩, ⟨.Identifier, ['x'], 4⟩, ⟨.Set, ['='], 6⟩,
       ⟨.Integer, ['5'], 8⟩, ⟨.Semicolon, [';'], 9⟩] := by rfl

/-- C3: whenever the scanner reaches an opening quote with no closing quote
before end of input, it fails with `unterminated string literal` at the
offset of the opening quote; in particular `"\"unterminated"` fails at 0. -/
theorem C3_unterminated_string :
    (∀ pos tail, tail.count '"' = 0 →
        lexLoop pos ('"' :: tail) = .error ⟨"unterminated string literal", pos⟩)
    ∧ lexRun ("\"unterminated".toList) = .error ⟨"unterminated string literal", 0⟩ := by
  constructor
  · intro pos tail hcount
    rw [lexLoop_cons, if_neg (by decide : ¬isWhitespace '"' = true)]
    have hnt : nextToken pos '"' tail = .error ⟨"unterminated string literal", pos⟩ := by
      unfold nextToken
      rw [if_neg (by decide), if_neg (by decide), if_pos rfl, scanString_none hcount]
    rw [hnt]
  · rfl

theorem C3_witness :
    lexLoop 7 ('"' :: 'a' :: 'b' :: []) = .error ⟨"unterminated string literal", 7⟩ :=
  C3_unterminated_string.1 7 ('a' :: 'b' :: []) (by decide)

/-- C4: maximal munch.  Whenever the scanner reaches `->` it emits a single
`Arrow`, whenever it reaches `:=` it emits a single `Set`; and on any
successful run no `Minus` token is immediately followed by `>`, no `Colon`
token is immediately followed by `=`, and no `Integer` or word token can be
extended by the character that follows it. -/
theorem C4_maximal_munch :
    (∀ pos r, lexLoop pos ('-' :: '>' :: r) =
        (lexLoop (pos + 2) r).map (fun ts => ⟨TokenType.Arrow, ['-', '>'], pos⟩ :: ts))
    ∧ (∀ pos r, lexLoop pos (':' :: '=' :: r) =
        (lexLoop (pos + 2) r).map (fun ts => ⟨TokenType.Set, [':', '='], pos⟩ :: ts))
    ∧ (∀ input ts, lexRun input = .ok ts → ∀ t ∈ ts,
        (t.type = .Minus → (input.drop (t.position + 1)).head? ≠ some '>')
        ∧ (t.type = .Colon → (input.drop (t.position + 1)).head? ≠ some '=')
        ∧ (t.type = .Integer →
            ∀ d, (input.drop (t.position + t.text.length)).head? = some d → isDigit d = false)
        ∧ (isWordKind t.type = true →
            ∀ d, (input.drop (t.position + t.text.length)).head? = some d →
              isIdentCont d = false)) := by
  refine ⟨?_, ?_, ?_⟩
  · intro pos r
    rw [lexLoop_cons, if_neg (by decide : ¬isWhitespace '-' = true)]
    have hnt : nextToken pos '-' ('>' :: r) = .ok (⟨TokenType.Arrow, ['-', '>'], pos⟩, r) := rfl
    rw [hnt]
    dsimp only
    rw [show pos + (['-', '>'] : List Char).length = pos + 2 from rfl]
    cases lexLoop (pos + 2) r with
    | error e => rfl
    | ok ts => rfl
  · intro pos r
    rw [lexLoop_cons, if_neg (by decide : ¬isWhitespace ':' = true)]
    have hnt : nextToken pos ':' ('=' :: r) = .ok (⟨TokenType.Set, [':', '='], pos⟩, r) := rfl
    rw [hnt]
    dsimp only
    rw [show pos + ([':', '='] : List Char).length = pos + 2 from rfl]
    cases lexLoop (pos + 2) r with
    | error e => rfl
    | ok ts => rfl
  · intro input ts h t ht
    obtain ⟨hpos, hne, ⟨suf, hdrop, hm, hc2, hint, hword⟩, hmt, hct, hwsf, hhead⟩ :=
      (lexLoop_ok_sound input.length input le_rfl 0 ts h).1 t ht
    rw [Nat.sub_zero] at hdrop
    have hdropk : ∀ k, input.drop (t.position + k) = (t.text ++ suf).drop k := by
      intro k
      rw [← hdrop, List.drop_drop]
    refine ⟨?_, ?_, ?_, ?_⟩
    · intro hm'
      rw [hdropk 1, hmt hm']
      simpa using hm hm'
    · intro hc'
      rw [hdropk 1, hct hc']
      simpa using hc2 hc'
    · intro hint' d hd
      rw [hdropk t.text.length, List.drop_left] at hd
      exact hint hint' d hd
    · intro hword' d hd
      rw [hdropk t.text.length, List.drop_left] at hd
      exact hword hword' d hd

theorem C4_witness :
    lexLoop 0 ('-' :: '>' :: []) = .ok [⟨TokenType.Arrow, ['-', '>'], 0⟩]
    ∧ lexLoop 0 (':' :: '=' :: []) = .ok [⟨TokenType.Set, [':', '='], 0⟩]
    ∧ ((('a' :: '-' :: 'b' :: []).drop (1 + 1)).head? ≠ some '>') := by
  refine ⟨?_, ?_, ?_⟩
  · rw [C4_maximal_munch.1 0 []]; rfl
  · rw [C4_maximal_munch.2.1 0 []]; rfl
  · have h := ((C4_maximal_munch.2.2 ('a' :: '-' :: 'b' :: [])
      [⟨.Identifier, ['a'], 0⟩, ⟨.Minus, ['-'], 1⟩, ⟨.Identifier, ['b'], 2⟩] (by rfl)
      ⟨.Minus, ['-'], 1⟩ (by decide)).1) rfl
    exact h

/-- C5 counterexample: on the input `"\" \""` (a string literal containing a
space) `run` succeeds with a token whose `text` contains a whitespace
character, so the claim that whitespace never appears in any token's `text`
is false as stated. -/
theorem C5_counterexample :
    lexRun ('"' :: ' ' :: '"' :: []) = .ok [⟨TokenType.String, ['"', ' ', '"'], 0⟩]
    ∧ ' ' ∈ (Token.mk TokenType.String ['"', ' ', '"'] 0).text
    ∧ isWhitespace ' ' = true :=
  ⟨rfl, by decide, rfl⟩

/-- C5 amended: on every successful run every token has non-empty `text`,
no whitespace character appears in the `text` of any token other than a
`String` literal (nor as any token's first character, so no standalone
whitespace token exists), and the tokens are in strictly increasing
`position` order with no two tokens overlapping. -/
theorem C5_amended_invariants (input : List Char) (ts : List Token)
    (h : lexRun input = .ok ts) :
    (∀ t ∈ ts, t.text ≠ [])
    ∧ (∀ t ∈ ts, t.type ≠ .String → ∀ c ∈ t.text, isWhitespace c = false)
    ∧ (∀ t ∈ ts, ∀ c ∈ t.text.take 1, isWhitespace c = false)
    ∧ List.Chain' (fun a b => a.position + a.text.length ≤ b.position) ts
    ∧ List.Chain' (fun a b => a.position < b.position) ts := by
  obtain ⟨hfacts, hch⟩ := lexLoop_ok_sound input.length input le_rfl 0 ts h
  have hne : ∀ t ∈ ts, t.text ≠ [] := fun t ht => (hfacts t ht).2.1
  have hle := Chained_chain_le hch
  exact ⟨hne, fun t ht => (hfacts t ht).2.2.2.2.2.1, fun t ht => (hfacts t ht).2.2.2.2.2.2,
    hle, chain_lt_of_chain_le hne hle⟩

theorem C5_amended_witness :
    (∀ t ∈ [⟨TokenType.Let, ['l', 'e', 't'], 0⟩, ⟨TokenType.Identifier, ['x'], 4⟩,
        ⟨TokenType.Set, ['='], 6⟩, ⟨TokenType.Integer, ['5'], 8⟩,
        ⟨TokenType.Semicolon, [';'], 9⟩], Token.text t ≠ [])
    ∧ (∀ t ∈ [⟨TokenType.Let, ['l', 'e', 't'], 0⟩, ⟨TokenType.Identifier, ['x'], 4⟩,
        ⟨TokenType.Set, ['='], 6⟩, ⟨TokenType.Integer, ['5'], 8⟩,
        ⟨TokenType.Semicolon, [';'], 9⟩], Token.type t ≠ .String →
          ∀ c ∈ (Token.text t), isWhitespace c = false)
    ∧ (∀ t ∈ [⟨TokenType.Let, ['l', 'e', 't'], 0⟩, ⟨TokenType.Identifier, ['x'], 4⟩,
        ⟨TokenType.Set, ['='], 6⟩, ⟨TokenType.Integer, ['5'], 8⟩,
        ⟨TokenType.Semicolon, [';'], 9⟩], ∀ c ∈ (Token.text t).take 1, isWhitespace c = false)
    ∧ List.Chain' (fun a b => a.position + a.text.length ≤ b.position)
        ([⟨TokenType.Let, ['l', 'e', 't'], 0⟩, ⟨TokenType.Identifier, ['x'], 4⟩,
          ⟨TokenType.Set, ['='], 6⟩, ⟨TokenType.Integer, ['5'], 8⟩,
          ⟨TokenType.Semicolon, [';'], 9⟩] : List Token)
    ∧ List.Chain' (fun a b => a.position < b.position)
        ([⟨TokenType.Let, ['l', 'e', 't'], 0⟩, ⟨TokenType.Identifier, ['x'], 4⟩,
          ⟨TokenType.Set, ['='], 6⟩, ⟨TokenType.Integer, ['5'], 8⟩,
          ⟨TokenType.Semicolon, [';'], 9⟩] : List Token) :=
  C5_amended_invariants ("let x = 5;".toList) _ (by rfl)

/-- C6: the empty input lexes to the empty token sequence, not an error. -/
theorem C6_empty_input : lexRun [] = .ok [] := rfl

/-- C8: the scanning algorithm, read as a relation on configurations, is
deterministic — any two results of lexing the same input are equal — and
`lexRun` realises it, so re-running on the same input always yields the
identical result with no hidden state. -/
theorem C8_deterministic :
    (∀ input r₁ r₂, LexesFrom 0 input r₁ → LexesFrom 0 input r₂ → r₁ = r₂)
    ∧ (∀ input, LexesFrom 0 input (lexRun input)) :=
  ⟨fun _ _ _ h1 h2 => lexesFrom_det h1 h2,
   fun input => lexLoop_lexesFrom input.length input le_rfl 0⟩

theorem C8_witness : (Except.ok [] : Except LexError (List Token)) = lexRun [] :=
  C8_deterministic.1 [] (.ok []) (lexRun []) (LexesFrom.nil 0) (C8_deterministic.2 [])

/-- C9: when no first command-line argument is present (`args.get? 1 =
none`, with `args.head?` the program name), `main` fails fatally with the
`expect` panic message; as its definition shows, `main` never invokes the
lexer, so the failure happens before any lexing. -/
theorem C9_missing_argument (args : List String) (h : args.get? 1 = none) :
    Dolang.main args = .error "expected input path" := by
  unfold main
  rw [h]

theorem C9_witness : Dolang.main ["transpiler"] = .error "expected input path" :=
  C9_missing_argument ["transpiler"] rfl

/-- C10: the placeholder `Lexer::run` in the sources returns no tokens (its
embedding returns only the printed lines); it prints exactly one line per
input character, in order, containing the zero-based index and the
character. -/
theorem C10_placeholder_prints (input : List Char) :
    (Lexer.run input).length = input.length
    ∧ ∀ i c, input.get? i = some c →
        (Lexer.run input).get? i = some (toString i ++ ": " ++ toString c) := by
  constructor
  · simp [Lexer.run, List.enum_length]
  · intro i c hc
    simp [Lexer.run, List.getElem?_map, List.getElem?_enum,
      List.get?_eq_getElem?] at hc ⊢
    simp [hc]

theorem C10_witness :
    (Lexer.run ('h' :: 'i' :: [])).length = 2
    ∧ (Lexer.run ('h' :: 'i' :: [])).get? 1 = some "1: i" := by
  constructor
  · exact (C10_placeholder_prints ('h' :: 'i' :: [])).1
  · have h := (C10_placeholder_prints ('h' :: 'i' :: [])).2 1 'i' (by rfl)
    rw [h]
    rfl

end Dolang
